import Mathlib

/-!
# Verification of the launcher catalog model

Shallow embedding of the state engine of a desktop application launcher
(a Vue + Tauri app).  The embedded code comes from `src/launcher/utils.ts`,
`src/launcher/useLauncherModel.ts`, `src/launcher/tauriFileDrop.ts` and
`src/launcher/types.ts`.  JavaScript strings are modeled as Lean `String`
(`toLowerCase` on the ASCII range), JS numbers used as indices as `ℚ`
(so that `Math.floor` on fractional input is representable) or as `Int`/`Nat`
where the code only ever produces integers, and the effectful `createId()` /
`Date.now()` calls as an explicit id-supply function and timestamp parameter.
-/

namespace Launcher

/-- `UiLanguage` from `types.ts`: `"en" | "zh-CN"`. -/
inductive UiLanguage where
  | en
  | zhCN
deriving DecidableEq, Repr

/-- The `theme` field of `UiSettings`: `"dark" | "light"`. -/
inductive Theme where
  | dark
  | light
deriving DecidableEq, Repr

/-- `UiSettings` from `types.ts` (scalar preference bag; numeric fields are JS
numbers, modeled as `Int` — their values play no role in the claims below). -/
structure UiSettings where
  language : UiLanguage
  cardWidth : Int
  cardHeight : Int
  toggleHotkey : String
  theme : Theme
  sidebarWidth : Int
  fontFamily : String
  fontSize : Int
  cardFontSize : Int
  cardIconScale : Int
  dblClickBlankToHide : Bool
  alwaysOnTop : Bool
  hideOnStartup : Bool
  useRelativePath : Bool
  enableGroupDragSort : Bool
  autoStart : Bool
deriving DecidableEq, Repr

/-- `AppEntry` from `types.ts`: `{ id; name; path; args?; icon?; addedAt }`.
The optional fields are `Option`s; `addedAt` is a `Date.now()` millisecond
timestamp. -/
structure AppEntry where
  id : String
  name : String
  path : String
  args : Option String
  icon : Option String
  addedAt : Nat
deriving DecidableEq, Repr

/-- `Group` from `types.ts`: `{ id; name; apps }`. -/
structure Group where
  id : String
  name : String
  apps : List AppEntry
deriving DecidableEq, Repr

/-- `LauncherState` from `types.ts`: `{ version: 1; activeGroupId; groups; settings }`. -/
structure LauncherState where
  version : Nat
  activeGroupId : String
  groups : List Group
  settings : UiSettings
deriving DecidableEq, Repr

/-! ## JS string primitives -/

/-- `String.prototype.toLowerCase`, on the ASCII range (the embedded code only
compares search text against names; non-ASCII letters are left unchanged). -/
def jsToLowerChar (c : Char) : Char :=
  if 65 ≤ c.toNat ∧ c.toNat ≤ 90 then Char.ofNat (c.toNat + 32) else c

/-- `toLowerCase` lifted to strings. -/
def jsToLower (s : String) : String :=
  ⟨s.data.map jsToLowerChar⟩

/-- The whitespace class of JS `trim` / the regex `\s`, restricted to ASCII. -/
def jsIsWs (c : Char) : Bool :=
  c == ' ' || c == '\t' || c == '\n' || c == '\r' || c == Char.ofNat 11 || c == Char.ofNat 12

/-- `String.prototype.trim` on a character list: drop whitespace from both ends. -/
def jsTrimL (l : List Char) : List Char :=
  ((l.dropWhile jsIsWs).reverse.dropWhile jsIsWs).reverse

/-- `String.prototype.trim`. -/
def jsTrim (s : String) : String :=
  ⟨jsTrimL s.data⟩

/-- `q` matches at the start of `s` (the needle is the first argument). -/
def begMatch : List Char → List Char → Bool
  | [], _ => true
  | _ :: _, [] => false
  | a :: as, b :: bs => a == b && begMatch as bs

/-- `String.prototype.includes`: `hasSeg s q` is true when `q` occurs
contiguously inside `s` (true for the empty needle, as in JS). -/
def hasSeg : List Char → List Char → Bool
  | [], q => q.isEmpty
  | a :: t, q => begMatch q (a :: t) || hasSeg t q

/-- `hasSeg` on strings: `s.includes(q)`. -/
def strHasSeg (s q : String) : Bool :=
  hasSeg s.data q.data

/-- Splitting on *runs* of delimiter characters, keeping only the nonempty
pieces: the semantics of JS `str.split(/[\s\-_\.]+/)` followed by the
`if (!term) continue` guard of the search-index loop (JS split can also emit
empty pieces at the two ends; those are exactly the ones that guard skips). -/
def splitRuns (p : Char → Bool) : List Char → List (List Char)
  | [] => []
  | c :: rest =>
    if p c then splitRuns p rest
    else (c :: rest.takeWhile (fun d => !p d)) :: splitRuns p (rest.dropWhile (fun d => !p d))
termination_by l => l.length
decreasing_by
  · simp only [List.length_cons]
    omega
  · simp only [List.length_cons]
    have h := (rest.dropWhile_sublist (fun d => !p d)).length_le
    omega

/-- The delimiter class of the search-index regex `[\s\-_\.]`. -/
def jsDelim (c : Char) : Bool :=
  jsIsWs c || c == '-' || c == '_' || c == '.'

/-! ## `utils.ts` -/

/-- `getBasename` from `utils.ts`: replace every backslash with `/`, split on
`/`, take the last piece, falling back to the whole path when it is empty. -/
def getBasename (filePath : String) : String :=
  let normalized := filePath.replace "\\" "/"
  let parts := normalized.splitOn "/"
  let last := (parts.getLast?).getD ""
  if last = "" then filePath else last

/-- JS `String.prototype.lastIndexOf` for a single character (−1 if absent). -/
def jsLastIndexOf (l : List Char) (c : Char) : Int :=
  match l.reverse.findIdx? (· == c) with
  | none => -1
  | some r => (l.length : Int) - 1 - r

/-- `suggestAppName` from `utils.ts`: the basename with its final extension
stripped when the last dot is at a positive index. -/
def suggestAppName (filePath : String) : String :=
  let base := getBasename filePath
  let dot := jsLastIndexOf base.data '.'
  if dot > 0 then ⟨base.data.take dot.toNat⟩ else base

/-- The entry literal constructed inside `addAppsToGroup` / `addAppsToGroupAt`
(`utils.ts`): fresh id, suggested name, empty args, no icon, timestamp `now`. -/
def mkDroppedEntry (id : String) (p : String) (now : Nat) : AppEntry :=
  { id := id, name := suggestAppName p, path := p, args := some "", icon := none, addedAt := now }

/-- The accumulation loop shared by `addAppsToGroup` and `addAppsToGroupAt`
(`utils.ts`): walk `filePaths`, skipping empty paths and paths already in
`existing` (the target-path set, also extended by each accepted path), and
build the list `toAdd` of new entries.  `supply k` models the `k`-th
`createId()` call. -/
def buildToAdd (supply : Nat → String) (now : Nat) :
    List String → List String → Nat → List AppEntry
  | [], _, _ => []
  | p :: rest, existing, k =>
    if p == "" || existing.contains p then buildToAdd supply now rest existing k
    else mkDroppedEntry (supply k) p now :: buildToAdd supply now rest (p :: existing) (k + 1)

/-- `addAppsToGroup` from `utils.ts` (the two-parameter version that the
repository exports): dedup-filter the paths against the group's entry paths,
`unshift` the new entries onto the front, and return
`group.apps.filter((a) => ids.has(a.id))`.  A JS call site may pass a third
argument; the function declares no third parameter, so such an argument is
ignored. -/
def addAppsToGroup (group : Group) (filePaths : List String)
    (supply : Nat → String) (now : Nat) : Group × List AppEntry :=
  let toAdd := buildToAdd supply now filePaths (group.apps.map (·.path)) 0
  if toAdd.isEmpty then (group, [])
  else
    let apps' := toAdd ++ group.apps
    let ids := toAdd.map (·.id)
    ({ group with apps := apps' }, apps'.filter (fun a => ids.contains a.id))

/-- `addAppsToGroupAt` from `utils.ts`: same filtering, but `splice`s the new
entries in at `Math.max(0, Math.min(group.apps.length, Math.floor(insertAt)))`. -/
def addAppsToGroupAt (group : Group) (filePaths : List String) (insertAt : ℚ)
    (supply : Nat → String) (now : Nat) : Group × List AppEntry :=
  let toAdd := buildToAdd supply now filePaths (group.apps.map (·.path)) 0
  if toAdd.isEmpty then (group, [])
  else
    let idx := (max 0 (min (group.apps.length : Int) ⌊insertAt⌋)).toNat
    let apps' := group.apps.take idx ++ toAdd ++ group.apps.drop idx
    let ids := toAdd.map (·.id)
    ({ group with apps := apps' }, apps'.filter (fun a => ids.contains a.id))

/-! ## `useLauncherModel.ts`: group operations -/

/-- JS `Array.prototype.findIndex`: index of the first element satisfying `p`,
or `-1`. -/
def findIndexJs (p : α → Bool) : List α → Int
  | [] => -1
  | a :: as =>
    if p a then 0
    else
      let r := findIndexJs p as
      if r < 0 then -1 else r + 1

/-- `moveGroupById` from `useLauncherModel.ts`: find the group, `splice` it
out, clamp `Math.floor(toIndex)` to `[0, total]`, shift the target left when
it lies past the removal point, clamp again to the shortened list, `splice`
the group back in, and report whether `insertAt !== fromIndex`.  JS `splice`
removal/insertion is modeled by `take`/`drop` concatenation. -/
def moveGroupById (groups : List Group) (groupId : String) (toIndex : ℚ) :
    List Group × Bool :=
  let total := groups.length
  let fromIndex := findIndexJs (fun g => g.id == groupId) groups
  if fromIndex < 0 then (groups, false)
  else
    let fi := fromIndex.toNat
    match groups[fi]? with
    | none => (groups.take fi ++ groups.drop (fi + 1), false)
    | some group =>
      let removed := groups.take fi ++ groups.drop (fi + 1)
      let rawTarget : Int := max 0 (min (total : Int) ⌊toIndex⌋)
      let insertAt0 : Int := if rawTarget > fromIndex then rawTarget - 1 else rawTarget
      let insertAt : Int := max 0 (min (removed.length : Int) insertAt0)
      (removed.take insertAt.toNat ++ [group] ++ removed.drop insertAt.toNat,
        decide (insertAt ≠ fromIndex))

/-- `removeGroup` from `useLauncherModel.ts`: refuse when at most one group
remains; otherwise `splice` out the first group with the given id and, when it
was the active one, repoint `activeGroupId` at `state.groups[0]?.id` (keeping
the old value when no group remains). -/
def removeGroup (st : LauncherState) (group : Group) : LauncherState :=
  if st.groups.length ≤ 1 then st
  else
    let idx := findIndexJs (fun g => g.id == group.id) st.groups
    let groups' :=
      if idx ≥ 0 then st.groups.take idx.toNat ++ st.groups.drop (idx.toNat + 1)
      else st.groups
    let active' :=
      if st.activeGroupId == group.id then
        match groups'.head? with
        | some g0 => g0.id
        | none => st.activeGroupId
      else st.activeGroupId
    { st with groups := groups', activeGroupId := active' }

/-- JS `String.prototype.startsWith`. -/
def jsStartsWith (s pre : String) : Bool :=
  begMatch pre.data s.data

/-- `addGroup` from `useLauncherModel.ts`: the name defaults (for a missing or
all-whitespace argument) to `Group-` followed by one plus the number of
existing groups whose name starts with `Group-`; the new group is pushed and
becomes active.  `freshId` models the `createId()` call. -/
def addGroup (st : LauncherState) (name : Option String) (freshId : String) :
    LauncherState :=
  let defName :=
    "Group-" ++ toString ((st.groups.filter (fun g => jsStartsWith g.name "Group-")).length + 1)
  let nextName :=
    match name with
    | some n => if jsTrim n = "" then defName else jsTrim n
    | none => defName
  { st with
    groups := st.groups ++ [{ id := freshId, name := nextName, apps := [] }],
    activeGroupId := freshId }

/-! ## `useLauncherModel.ts`: search index and filtering -/

/-- The term list the search index stores for one entry (lines 64–67): the
lower-cased name plus its `[\s\-_\.]+`-split tokens, empty terms skipped. -/
def appTerms (app : AppEntry) : List (List Char) :=
  let nameLower := (jsToLower app.name).data
  (nameLower :: splitRuns jsDelim nameLower).filter (fun t => !t.isEmpty)

/-- JS `Set.prototype.add` on an insertion-ordered list. -/
def addUnique (l : List String) (x : String) : List String :=
  if l.contains x then l else l ++ [x]

/-- One `index.get(term)!.add(app.id)` step (creating the binding first when
absent, appended at the end, as a JS `Map` does). -/
def indexAdd (m : List (List Char × List String)) (term : List Char) (id : String) :
    List (List Char × List String) :=
  match m with
  | [] => [(term, [id])]
  | (t, ids) :: rest =>
    if t = term then (t, addUnique ids id) :: rest
    else (t, ids) :: indexAdd rest term id

/-- `searchIndex` (lines 60–74): fold every term of every app of every group
into the insertion-ordered term → id-set map. -/
def buildIndex (groups : List Group) : List (List Char × List String) :=
  groups.foldl
    (fun m g => g.apps.foldl (fun m a => (appTerms a).foldl (fun m t => indexAdd m t a.id) m) m)
    []

/-- One `map.set(app.id, app)` step (replace in place, else append). -/
def mapSet (m : List (String × AppEntry)) (k : String) (v : AppEntry) :
    List (String × AppEntry) :=
  match m with
  | [] => [(k, v)]
  | (k0, v0) :: rest =>
    if k0 = k then (k0, v) :: rest else (k0, v0) :: mapSet rest k v

/-- `appById` (lines 77–85): id → entry lookup map, later bindings winning. -/
def buildAppById (groups : List Group) : List (String × AppEntry) :=
  groups.foldl (fun m g => g.apps.foldl (fun m a => mapSet m a.id a) m) []

/-- JS `Map.prototype.get`. -/
def mapGet (m : List (String × AppEntry)) (k : String) : Option AppEntry :=
  match m.find? (fun kv => kv.1 == k) with
  | some kv => some kv.2
  | none => none

/-- `activeGroup` (lines 55–57): the first group whose id is `activeGroupId`. -/
def activeGroupOf (st : LauncherState) : Option Group :=
  st.groups.find? (fun g => g.id == st.activeGroupId)

/-- `for (const id of ids) matchedIds.add(id)`. -/
def addAllUnique (acc : List String) (ids : List String) : List String :=
  ids.foldl addUnique acc

/-- The `matchedIds` loop of `filteredApps` (lines 94–99): walk the index in
order and union the id-sets of every term containing `q`. -/
def collectMatched (index : List (List Char × List String)) (q : List Char) :
    List String :=
  index.foldl (fun acc ti => if hasSeg ti.1 q then addAllUnique acc ti.2 else acc) []

/-- `filteredApps` (lines 87–106): trim + lower-case the search text; when
empty, the active group's apps (or `[]`); otherwise the entries of all matched
ids, resolved through `appById` (unresolvable ids skipped). -/
def filteredApps (st : LauncherState) (search : String) : List AppEntry :=
  let q := jsToLower (jsTrim search)
  if q = "" then
    match activeGroupOf st with
    | some g => g.apps
    | none => []
  else
    let matchedIds := collectMatched (buildIndex st.groups) q.data
    matchedIds.filterMap (fun id => mapGet (buildAppById st.groups) id)

/-! ## `useLauncherModel.ts`: selection -/

/-- The selection state touched by `onAppClick`: the insertion-ordered
`selectedAppIds` set, the `lastClickedAppId` anchor, and (for the claims about
launching) the ids passed to `launch` so far. -/
structure ClickState where
  selected : List String
  lastClicked : Option String
  launched : List String
deriving DecidableEq, Repr

/-- The mouse-event modifier bits `onAppClick` reads; `ctrl` stands for
`ev.ctrlKey || ev.metaKey`. -/
structure ClickMods where
  ctrl : Bool
  shift : Bool
deriving DecidableEq, Repr

/-- `onAppClick` (lines 210–240).  `suppress` is
`internalDrag.shouldSuppressClick()`; `visible` is the current
`filteredApps.value`.  Ctrl/cmd toggles membership and moves the anchor;
shift selects the index range between `max(anchorIndex, 0)` and the clicked
index over `visible` (no-op when the clicked entry is not visible); a plain
click clears the selection, sets the anchor and launches. -/
def onAppClick (suppress : Bool) (visible : List AppEntry) (ev : ClickMods)
    (app : AppEntry) (s : ClickState) : ClickState :=
  if suppress then s
  else if ev.ctrl then
    { s with
      selected :=
        if s.selected.contains app.id then s.selected.filter (fun x => x != app.id)
        else s.selected ++ [app.id],
      lastClicked := some app.id }
  else if ev.shift then
    let lastIdx : Int :=
      match s.lastClicked with
      | some lid => findIndexJs (fun a => a.id == lid) visible
      | none => 0
    let curIdx : Int := findIndexJs (fun a => a.id == app.id) visible
    if curIdx ≥ 0 then
      let fromI : Int := min (max lastIdx 0) curIdx
      let toI : Int := max (max lastIdx 0) curIdx
      let ids := ((visible.drop fromI.toNat).take (toI.toNat - fromI.toNat + 1)).map (·.id)
      { s with selected := ids.foldl addUnique s.selected }
    else s
  else
    { selected := [], lastClicked := some app.id, launched := s.launched ++ [app.id] }

/-! ## `useLauncherModel.ts`: persistence scheduler -/

/-- The debounce delay of `scheduleSave`: 500 ms. -/
def debounceMs : Nat := 500

/-- The persistence scheduler's observable state: the pending timer's fire
time (`saveTimer`), the payloads handed to `saveState` so far (the
`JSON.parse(JSON.stringify(state))` round-trip is the identity on the plain
data model), the current model value, and the `hydrated` flag. -/
structure Sched where
  timer : Option Nat
  saves : List LauncherState
  model : LauncherState
  hydrated : Bool
deriving DecidableEq, Repr

/-- The timer callback of `scheduleSave` (lines 141–155): when a timer is due
at `now`, clear it and hand the *current* model snapshot to `saveState`. -/
def fireIfDue (s : Sched) (now : Nat) : Sched :=
  match s.timer with
  | some f => if f ≤ now then { s with timer := none, saves := s.saves ++ [s.model] } else s
  | none => s

/-- `scheduleSave` (lines 138–141): a no-op before hydration; otherwise clear
any pending timer and arm a fresh one 500 ms from now. -/
def schedSave (s : Sched) (now : Nat) : Sched :=
  if !s.hydrated then s else { s with timer := some (now + debounceMs) }

/-- One model mutation at time `now`: the deep watchers (lines 158–160) run
`scheduleSave` after the mutation. -/
def mutateEvt (s : Sched) (v : LauncherState) (now : Nat) : Sched :=
  schedSave { s with model := v } now

/-- Process a list of timestamped mutations, firing a due timer before each
one (nothing else runs between events on the single JS thread). -/
def runTrace (s0 : Sched) (trace : List (LauncherState × Nat)) : Sched :=
  trace.foldl (fun s vt => mutateEvt (fireIfDue s vt.2) vt.1 vt.2) s0

/-- The scheduler as constructed at startup (`hydrated` is still false,
`onMounted` has not finished `loadState`; lines 45, 1030–1037). -/
def startupSched (m : LauncherState) : Sched :=
  ⟨none, [], m, false⟩

/-- The scheduler right after hydration completed (the `finally` of
`onMounted` set `hydrated.value = true`; no timer armed, nothing saved). -/
def hydratedSched (m : LauncherState) : Sched :=
  ⟨none, [], m, true⟩

/-- The `saveErrorShown` latch (lines 49, 145–154): the input lists the
settled outcomes of successive `saveState` calls (`true` = fulfilled,
`false` = rejected); the output marks which of them showed the failure toast.
A rejection shows the toast only when the latch is unset, and sets it; no code
path in `useLauncherModel.ts` ever writes `saveErrorShown = false` again. -/
def latchEmits : Bool → List Bool → List Bool
  | _, [] => []
  | shown, ok :: rest =>
    if ok then false :: latchEmits shown rest
    else if shown then false :: latchEmits shown rest
    else true :: latchEmits true rest

/-! ## `tauriFileDrop.ts`: external drop commit -/

/-- Modelled from the spec: the resolved preview target produced by
`externalFileDropPreview.ts`, a file that is not part of the sources (only its
caller imports the type).  The spec says the preview resolves "the preview's
resolved target (group + index)", so the pending target carries a group id and
an optional insertion index. -/
structure PendingExternalTarget where
  groupId : String
  index : Option Nat
deriving DecidableEq, Repr

/-- `ExternalDropTarget` from `externalDrop.ts`:
`{ paths; groupId; index?: number }`. -/
structure ExternalDropTarget where
  paths : List String
  groupId : String
  index : Option Int
deriving DecidableEq, Repr

/-- What one OS drop event leaves behind: the group list, the entries the
handler reported as added, and whether it toasted / scheduled a save. -/
structure DropOutcome where
  groups : List Group
  added : List AppEntry
  toasted : Bool
  saveScheduled : Bool
deriving DecidableEq, Repr

/-- Replace the first group with the given id (the JS handler mutates, through
a reference obtained by `find`, the group object inside the array). -/
def replaceFirst (groups : List Group) (gid : String) (g' : Group) : List Group :=
  match groups with
  | [] => []
  | g :: rest => if g.id == gid then g' :: rest else g :: replaceFirst rest gid g'

/-- The `drop` handler of `installTauriFileDropListeners`
(`tauriFileDrop.ts`, lines 20–47).  `isProcessing` is the single-flight flag
(set for the duration of an in-flight drop, so an overlapping event returns at
once); `pending` is `opts.consumePending()`; `fallbackResult` stands for the
DOM hit-test `computeExternalDropTarget(payload, active)`, which the handler
only consults when `pending` is null; `transform` is `opts.transformPaths`;
`paths` is `normalizeDroppedPaths(payload)`.  The handler resolves a target
group id and an index `idxBase`, then runs
`const added = addAppsToGroup(group, normalized, idxBase)` — `addAppsToGroup`
(`utils.ts`) declares only two parameters, so JS ignores the third argument
and the entries are unshifted onto the front of the group. -/
def dropHandler (groups : List Group) (activeGroupId : String)
    (pending : Option PendingExternalTarget) (fallbackResult : Option ExternalDropTarget)
    (paths : List String) (isProcessing : Bool)
    (transform : List String → List String) (supply : Nat → String) (now : Nat) :
    DropOutcome :=
  if isProcessing then ⟨groups, [], false, false⟩
  else
    match groups.find? (fun g => g.id == activeGroupId) with
    | none => ⟨groups, [], false, false⟩
    | some active =>
      if paths.isEmpty then ⟨groups, [], false, false⟩
      else
        let fallback := if pending.isSome then none else fallbackResult
        let groupId :=
          match pending with
          | some p => p.groupId
          | none =>
            match fallback with
            | some f => f.groupId
            | none => active.id
        let group := (groups.find? (fun g => g.id == groupId)).getD active
        let idxBase : Int :=
          match pending.bind (·.index) with
          | some i => (i : Int)
          | none =>
            match fallback.bind (·.index) with
            | some i => i
            | none => (group.apps.length : Int)
        let _ := idxBase
        let normalized := transform paths
        let (group', added) := addAppsToGroup group normalized supply now
        let groups' := replaceFirst groups group.id group'
        ⟨groups', added, !added.isEmpty, !added.isEmpty⟩

/-! ## Specification-side definitions and concrete sample values -/

/-- The path filter of `addEntries` as the spec words it: drop empty targets
and targets already present (by exact string equality), first occurrence of a
repeated target winning.  Compared against `buildToAdd` below. -/
def specKeptPaths (existing : List String) : List String → List String
  | [] => []
  | p :: rest =>
    if p = "" ∨ p ∈ existing then specKeptPaths existing rest
    else p :: specKeptPaths (p :: existing) rest

/-- The settings of `createDefaultState` (`utils.ts`), used as a concrete
settings bag for sample states. -/
def sampleSettings : UiSettings :=
  { language := .en, cardWidth := 120, cardHeight := 96, toggleHotkey := "",
    theme := .dark, sidebarWidth := 140, fontFamily := "maye", fontSize := 13,
    cardFontSize := 11, cardIconScale := 56, dblClickBlankToHide := true,
    alwaysOnTop := true, hideOnStartup := false, useRelativePath := false,
    enableGroupDragSort := true, autoStart := false }

/-- A visible entry for the selection scenario. -/
def visEntry (i n : String) : AppEntry :=
  ⟨i, n, n ++ ".exe", some "", none, 0⟩

/-- The visible list `[A, B, C, D]` of the selection scenario. -/
def visList : List AppEntry :=
  [visEntry "a" "A", visEntry "b" "B", visEntry "c" "C", visEntry "d" "D"]

/-- A catalog whose only group carries the default-scheme name `Group-2`. -/
def cxState9 : LauncherState :=
  ⟨1, "g1", [⟨"g1", "Group-2", []⟩], sampleSettings⟩

/-- Sample group `g1`. -/
def wGroup1 : Group := ⟨"g1", "Group-1", []⟩

/-- Sample group `g2`. -/
def wGroup2 : Group := ⟨"g2", "reverse", []⟩

/-- A two-group catalog with `g1` active. -/
def wState6 : LauncherState := ⟨1, "g1", [wGroup1, wGroup2], sampleSettings⟩

/-- A three-group list for the move-group sample. -/
def wGroups5 : List Group := [⟨"g1", "A", []⟩, ⟨"g2", "B", []⟩, ⟨"g3", "C", []⟩]

/-- A one-group model value with a chosen active-group id, for scheduler
traces. -/
def wModel (aid : String) : LauncherState := ⟨1, aid, [wGroup1], sampleSettings⟩

/-- An existing entry for the drop / add samples. -/
def cxOldEntry : AppEntry := ⟨"e0", "old", "C:/old.exe", some "", none, 5⟩

/-- A group holding one entry, the target of the sample external drop. -/
def cxDropGroup : Group := ⟨"g1", "Group-1", [cxOldEntry]⟩

/-- An id supply that is injective and avoids every sample id. -/
def wSupply : Nat → String := fun n => ⟨List.replicate (n + 1) 'f'⟩

/-- An entry whose name tokenizes as `fire`, `fox`. -/
def wEntry7 : AppEntry := ⟨"e1", "Fire-Fox", "C:/ff.exe", some "", none, 0⟩

/-- A catalog containing `wEntry7` in its active group. -/
def wState7 : LauncherState :=
  ⟨1, "g1", [⟨"g1", "Group-1", [wEntry7]⟩], sampleSettings⟩

/-! ## Theorems -/

/-- **C8.** Over the visible list `[A,B,C,D]` with an empty selection: a plain
click on `A` clears the selection, launches `A` and sets the anchor; a
following shift-click on `C` selects `{A,B,C}` (and launches nothing new);
ctrl-click on `B` twice toggles `B` in and out, leaving the empty selection
and never launching. -/
theorem claim_C8_selection_scenarios :
    (onAppClick false visList ⟨false, false⟩ (visEntry "a" "A") ⟨[], none, []⟩).launched = ["a"] ∧
    (onAppClick false visList ⟨false, false⟩ (visEntry "a" "A") ⟨[], none, []⟩).lastClicked = some "a" ∧
    (onAppClick false visList ⟨false, false⟩ (visEntry "a" "A") ⟨[], none, []⟩).selected = [] ∧
    (onAppClick false visList ⟨false, true⟩ (visEntry "c" "C")
        (onAppClick false visList ⟨false, false⟩ (visEntry "a" "A") ⟨[], none, []⟩)).selected
      = ["a", "b", "c"] ∧
    (onAppClick false visList ⟨false, true⟩ (visEntry "c" "C")
        (onAppClick false visList ⟨false, false⟩ (visEntry "a" "A") ⟨[], none, []⟩)).launched
      = ["a"] ∧
    (onAppClick false visList ⟨true, false⟩ (visEntry "b" "B") ⟨[], none, []⟩).selected = ["b"] ∧
    (onAppClick false visList ⟨true, false⟩ (visEntry "b" "B")
        (onAppClick false visList ⟨true, false⟩ (visEntry "b" "B") ⟨[], none, []⟩)).selected = [] ∧
    (onAppClick false visList ⟨true, false⟩ (visEntry "b" "B")
        (onAppClick false visList ⟨true, false⟩ (visEntry "b" "B") ⟨[], none, []⟩)).launched = [] := by
  decide

/-- **C9 (counterexample).** On a catalog whose only group is named `Group-2`,
`addGroup` without a name counts one existing `Group-`-prefixed group and
assigns `Group-2` — colliding with the existing default-named group, so the
default scheme does *not* avoid collisions. -/
theorem claim_C9_counterexample :
    ((addGroup cxState9 none "fresh-id").groups.map (fun g => g.name))
      = ["Group-2", "Group-2"] ∧
    "Group-2" ∈ cxState9.groups.map (fun g => g.name) := by
  decide

/-- **C9 (amended).** `addGroup` without a name appends a new empty group
named `Group-(k+1)` where `k` is the number of existing groups whose name
starts with `Group-` (a name that may collide with an existing group), and the
new group becomes the active group. -/
theorem claim_C9_default_name_and_activation (st : LauncherState) (freshId : String) :
    (addGroup st none freshId).activeGroupId = freshId ∧
    (addGroup st none freshId).groups.getLast? =
      some { id := freshId,
             name := "Group-" ++ toString
               ((st.groups.filter (fun g => jsStartsWith g.name "Group-")).length + 1),
             apps := [] } ∧
    (addGroup st none freshId).groups.length = st.groups.length + 1 ∧
    ((addGroup st none freshId).groups.getLast?).map (·.id)
      = some (addGroup st none freshId).activeGroupId := by
  refine ⟨rfl, ?_, by simp [addGroup], ?_⟩
  · simp [addGroup, List.getLast?_concat]
  · simp [addGroup, List.getLast?_concat]

/-- Once the `saveErrorShown` latch is set, no later outcome ever emits a
notification (nothing in the code clears the latch). -/
theorem latchEmits_set_all_silent (trace : List Bool) :
    (latchEmits true trace).count true = 0 := by
  induction trace with
  | nil => rfl
  | cons ok rest ih =>
    cases ok <;> simp [latchEmits, List.count_cons, ih]

/-- **C2 (counterexample).** Trace: a failed save, a successful save, a failed
save.  The first failure is surfaced, but the failure *after the successful
save* is not — the successful save does not reset the latch, contradicting the
claim that a subsequent failure is surfaced again. -/
theorem claim_C2_counterexample :
    latchEmits false [false, true, false] = [true, false, false] ∧
    (latchEmits false [false, true, false]).getLast? ≠ some true := by
  decide

/-- **C2 (amended).** The failure notification is shown exactly once per
model lifetime: over any trace of save outcomes, the number of surfaced
failure notifications is `min 1 (number of failures)` — later failures stay
suppressed even after successful saves, because no successful save resets the
latch. -/
theorem claim_C2_failure_latch (trace : List Bool) :
    (latchEmits false trace).count true = min 1 (trace.count false) := by
  induction trace with
  | nil => rfl
  | cons ok rest ih =>
    cases ok
    · simp [latchEmits, List.count_cons, latchEmits_set_all_silent]
    · simp [latchEmits, List.count_cons, ih]

/-- Before hydration, every event leaves the scheduler without a timer, with
an unchanged save log, and still unhydrated. -/
theorem runTrace_unhydrated (trace : List (LauncherState × Nat)) :
    ∀ s : Sched, s.hydrated = false → s.timer = none →
      (runTrace s trace).timer = none ∧ (runTrace s trace).saves = s.saves ∧
        (runTrace s trace).hydrated = false := by
  induction trace with
  | nil => intro s _ ht; exact ⟨ht, rfl, by assumption⟩
  | cons e rest ih =>
    intro s hh ht
    have h1 : fireIfDue s e.2 = s := by simp [fireIfDue, ht]
    have h2 : mutateEvt s e.1 e.2 = { s with model := e.1 } := by
      simp [mutateEvt, schedSave, hh]
    have hstep : runTrace s (e :: rest) = runTrace { s with model := e.1 } rest := by
      simp only [runTrace, List.foldl_cons, h1, h2]
    rw [hstep]
    exact ih { s with model := e.1 } hh ht

/-- **C10.** While `hydrated` is still false (the initial catalog load has not
completed), `scheduleSave` is a no-op for every mutation: over any trace of
mutations starting from the startup scheduler, no timer is ever armed and
`saveState` is never called — even after waiting arbitrarily long — so the
default-constructed startup state can never overwrite the persisted catalog. -/
theorem claim_C10_no_save_before_hydration (m : LauncherState)
    (trace : List (LauncherState × Nat)) (t : Nat) :
    (fireIfDue (runTrace (startupSched m) trace) t).saves = [] ∧
    (runTrace (startupSched m) trace).timer = none := by
  obtain ⟨h1, h2, _⟩ := runTrace_unhydrated trace (startupSched m) rfl rfl
  refine ⟨?_, h1⟩
  have h3 : fireIfDue (runTrace (startupSched m) trace) t
      = runTrace (startupSched m) trace := by
    simp [fireIfDue, h1]
  rw [h3, h2]
  rfl

/-- **C3 (code evaluation at the failing input).** One group `g1` holding one
entry (`C:/old.exe`), active, with a resolved preview target `(g1, index 1)`
(the end of the list): committing the drop of `C:/new.exe` inserts it at the
*front* (`["C:/new.exe", "C:/old.exe"]`), not at resolved index 1 — the call
site `addAppsToGroup(group, normalized, idxBase)` passes the resolved index to
a function whose signature takes no index, so JS ignores it and `unshift`s.
The single-flight half of the claim does hold: the same drop arriving while
`isProcessing` is set changes nothing. -/
theorem claim_C3_front_insertion_eval :
    ((dropHandler [cxDropGroup] "g1" (some ⟨"g1", some 1⟩) none ["C:/new.exe"] false
        (fun ps => ps) (fun _ => "id-new") 99).groups.map (fun g => g.apps.map (·.path)))
      = [["C:/new.exe", "C:/old.exe"]] ∧
    (dropHandler [cxDropGroup] "g1" (some ⟨"g1", some 1⟩) none ["C:/new.exe"] true
        (fun ps => ps) (fun _ => "id-new") 99)
      = ⟨[cxDropGroup], [], false, false⟩ := by
  decide

/-- Burst invariant: starting with a timer armed at `t + debounceMs`, model
`v` and save log `L`, a chain of further mutations each arriving strictly
inside the previous event's debounce window never lets the timer fire; at the
end the log is unchanged, the model is the last mutation's value, and the
timer is armed `debounceMs` after the last mutation. -/
theorem runTrace_burst (rest : List (LauncherState × Nat)) :
    ∀ (v : LauncherState) (t : Nat) (L : List LauncherState),
      List.Chain' (fun a b => b.2 < a.2 + debounceMs) ((v, t) :: rest) →
      runTrace ⟨some (t + debounceMs), L, v, true⟩ rest =
        ⟨some ((((v, t) :: rest).getLast (by simp)).2 + debounceMs), L,
          (((v, t) :: rest).getLast (by simp)).1, true⟩ := by
  induction rest with
  | nil =>
    intro v t L _
    simp [runTrace, List.getLast]
  | cons e rest ih =>
    intro v t L hch
    obtain ⟨hlt, hch'⟩ := List.chain'_cons.mp hch
    have hfire : fireIfDue ⟨some (t + debounceMs), L, v, true⟩ e.2
        = ⟨some (t + debounceMs), L, v, true⟩ := by
      simp only [fireIfDue]
      rw [if_neg]
      omega
    have hmut : mutateEvt ⟨some (t + debounceMs), L, v, true⟩ e.1 e.2
        = ⟨some (e.2 + debounceMs), L, e.1, true⟩ := by
      simp [mutateEvt, schedSave]
    have hstep : runTrace ⟨some (t + debounceMs), L, v, true⟩ (e :: rest)
        = runTrace ⟨some (e.2 + debounceMs), L, e.1, true⟩ rest := by
      simp only [runTrace, List.foldl_cons, hfire, hmut]
    rw [hstep]
    have hch2 : List.Chain' (fun a b => b.2 < a.2 + debounceMs) ((e.1, e.2) :: rest) := by
      simpa using hch'
    rw [ih e.1 e.2 L hch2]
    have hlast : ((v, t) :: e :: rest).getLast (by simp)
        = ((e.1, e.2) :: rest).getLast (by simp) := by
      simp [List.getLast_cons]
    rw [hlast]

/-- **C4.** For every burst of `N ≥ 1` mutations in which each mutation lands
strictly inside the debounce window opened by the previous one, starting from
the freshly hydrated scheduler: no save happens during the burst, and once the
last window elapses exactly one `saveState` call is issued, whose payload is
the model state as of the *last* mutation (the snapshot is taken at send time,
not at schedule time). -/
theorem claim_C4_debounce_single_save (m0 : LauncherState) (e : LauncherState × Nat)
    (rest : List (LauncherState × Nat)) (T : Nat)
    (hchain : List.Chain' (fun a b => b.2 < a.2 + debounceMs) (e :: rest))
    (hT : ((e :: rest).getLast (by simp)).2 + debounceMs ≤ T) :
    (runTrace (hydratedSched m0) (e :: rest)).saves = [] ∧
    (fireIfDue (runTrace (hydratedSched m0) (e :: rest)) T).saves
      = [((e :: rest).getLast (by simp)).1] := by
  obtain ⟨v, t⟩ := e
  have hstep : runTrace (hydratedSched m0) ((v, t) :: rest)
      = runTrace ⟨some (t + debounceMs), [], v, true⟩ rest := by
    simp [runTrace, List.foldl_cons, hydratedSched, fireIfDue, mutateEvt, schedSave]
  rw [hstep, runTrace_burst rest v t [] hchain]
  refine ⟨rfl, ?_⟩
  simp only [fireIfDue]
  rw [if_pos]
  · rfl
  · exact hT

/-- **C4 (witness).** Two mutations at 0 ms and 300 ms (inside one 500 ms
window), flushed at 800 ms: exactly one save, carrying the second mutation's
state. -/
theorem claim_C4_witness :
    (runTrace (hydratedSched (wModel "g1")) [(wModel "a", 0), (wModel "b", 300)]).saves = [] ∧
    (fireIfDue (runTrace (hydratedSched (wModel "g1"))
        [(wModel "a", 0), (wModel "b", 300)]) 800).saves = [wModel "b"] := by
  have h := claim_C4_debounce_single_save (wModel "g1") (wModel "a", 0) [(wModel "b", 300)] 800
    (by simp [List.chain'_cons, debounceMs])
    (by simp [List.getLast, debounceMs])
  simpa [List.getLast] using h

/-- `findIndexJs` over a list whose prefix all fails `p` and whose next
element satisfies it returns the prefix length. -/
theorem findIndexJs_append_first {α : Type} (p : α → Bool) (pre : List α) (x : α)
    (suf : List α) (hpre : ∀ y ∈ pre, p y = false) (hx : p x = true) :
    findIndexJs p (pre ++ x :: suf) = (pre.length : Int) := by
  induction pre with
  | nil => simp [findIndexJs, hx]
  | cons a as ih =>
    have ha : p a = false := hpre a (by simp)
    have ih' := ih (fun y hy => hpre y (by simp [hy]))
    simp only [List.cons_append, findIndexJs, ha, List.append_eq]
    rw [ih', if_neg]
    all_goals simp [List.length_cons]

/-- Any list containing an element satisfying `p` splits at the first such
element. -/
theorem first_match_decomp {α : Type} (p : α → Bool) (l : List α)
    (hex : ∃ x ∈ l, p x = true) :
    ∃ pre x suf, l = pre ++ x :: suf ∧ p x = true ∧ ∀ y ∈ pre, p y = false := by
  induction l with
  | nil => simp at hex
  | cons a as ih =>
    by_cases hpa : p a = true
    · exact ⟨[], a, as, rfl, hpa, by simp⟩
    · have hpa' : p a = false := by
        cases h : p a
        · rfl
        · exact absurd h hpa
      obtain ⟨x, hx, hpx⟩ := hex
      rcases List.mem_cons.mp hx with rfl | hx'
      · exact absurd hpx hpa
      · obtain ⟨pre, y, suf, heq, hpy, hpre⟩ := ih ⟨x, hx', hpx⟩
        refine ⟨a :: pre, y, suf, by simp [heq], hpy, ?_⟩
        intro z hz
        rcases List.mem_cons.mp hz with rfl | hz'
        · exact hpa'
        · exact hpre z hz'

/-- Dropping the element after a prefix: `drop (|pre| + 1) (pre ++ x :: suf) = suf`. -/
theorem drop_succ_append {α : Type} (pre : List α) (x : α) (suf : List α) :
    (pre ++ x :: suf).drop (pre.length + 1) = suf := by
  have h : pre.length + 1 = (pre ++ [x]).length := by simp
  rw [List.append_cons, h, List.drop_left]

/-- **C6.** `removeGroup` is a no-op when only one group remains.  With at
least two groups and a catalog whose active id references an existing group:
after removing a group that is present, the active id still references an
existing group, the group count drops by exactly one, and when the removed
group was the active one the active id becomes the first remaining group's id. -/
theorem claim_C6_remove_group (st : LauncherState) (g : Group)
    (hmem : g.id ∈ st.groups.map (·.id))
    (hact : st.activeGroupId ∈ st.groups.map (·.id)) :
    (st.groups.length = 1 → removeGroup st g = st) ∧
    (2 ≤ st.groups.length →
      (removeGroup st g).activeGroupId ∈ (removeGroup st g).groups.map (·.id) ∧
      (removeGroup st g).groups.length + 1 = st.groups.length ∧
      (st.activeGroupId = g.id →
        ((removeGroup st g).groups.head?).map (·.id)
          = some (removeGroup st g).activeGroupId)) := by
  constructor
  · intro h1
    simp [removeGroup, h1]
  · intro h2
    have hex : ∃ x ∈ st.groups, (fun y => y.id == g.id) x = true := by
      rcases List.mem_map.mp hmem with ⟨a, ha, hid⟩
      exact ⟨a, ha, by simp [hid]⟩
    obtain ⟨pre, x, suf, heq, hpx, hpre⟩ := first_match_decomp _ _ hex
    have hxid : x.id = g.id := by simpa using hpx
    have hfi : findIndexJs (fun y => y.id == g.id) st.groups = (pre.length : Int) := by
      rw [heq]
      exact findIndexJs_append_first _ pre x suf (fun y hy => hpre y hy) hpx
    have hlen1 : ¬ st.groups.length ≤ 1 := by omega
    have htake : st.groups.take pre.length = pre := by
      rw [heq]; exact List.take_left pre (x :: suf)
    have hdrop : st.groups.drop (pre.length + 1) = suf := by
      rw [heq]; exact drop_succ_append pre x suf
    have hre : removeGroup st g =
        { st with groups := pre ++ suf,
                  activeGroupId :=
                    if st.activeGroupId == g.id then
                      match (pre ++ suf).head? with
                      | some g0 => g0.id
                      | none => st.activeGroupId
                    else st.activeGroupId } := by
      unfold removeGroup
      rw [if_neg hlen1, hfi]
      simp only [ge_iff_le, Int.natCast_nonneg, if_true, Int.toNat_natCast, htake, hdrop]
    have hlen' : st.groups.length = pre.length + 1 + suf.length := by
      rw [heq]
      simp [List.length_append]
      omega
    have hne : pre ++ suf ≠ [] := by
      intro hcon
      rcases List.append_eq_nil.mp hcon with ⟨hp, hs⟩
      rw [hp, hs] at hlen'
      simp at hlen'
      omega
    by_cases hb : st.activeGroupId = g.id
    · obtain ⟨h0, rest0, hps⟩ := List.exists_cons_of_ne_nil hne
      have hbeq : (st.activeGroupId == g.id) = true := by simp [hb]
      rw [hre]
      refine ⟨?_, ?_, ?_⟩
      · simp only [hbeq, if_pos, hps, List.head?_cons]
        exact List.mem_map.mpr ⟨h0, by simp, rfl⟩
      · simp only [List.length_append]
        omega
      · intro _
        simp only [hbeq, if_pos, hps, List.head?_cons]
        simp
    · have hbeq : (st.activeGroupId == g.id) = false := by simp [hb]
      rw [hre]
      refine ⟨?_, ?_, ?_⟩
      · simp only [hbeq, Bool.false_eq_true, if_false]
        have hmem' : st.activeGroupId ∈ (pre.map (·.id)) ++ x.id :: (suf.map (·.id)) := by
          have hsplit : st.groups.map (·.id)
              = (pre.map (·.id)) ++ x.id :: (suf.map (·.id)) := by
            simp [heq]
          rw [← hsplit]
          exact hact
        have hgoal : (pre ++ suf).map (·.id) = (pre.map (·.id)) ++ (suf.map (·.id)) := by
          simp
        rw [hgoal]
        rcases List.mem_append.mp hmem' with hl | hr
        · exact List.mem_append.mpr (Or.inl hl)
        · rcases List.mem_cons.mp hr with hxeq | hs
          · exact absurd (hxeq.trans hxid) hb
          · exact List.mem_append.mpr (Or.inr hs)
      · simp only [List.length_append]
        omega
      · intro hcon
        exact absurd hcon hb

/-- **C6 (witness).** Removing the active group `g1` from the two-group
catalog: the surviving group `g2` becomes active, the count drops to one, and
the new active id is the first remaining group's id. -/
theorem claim_C6_witness :
    (removeGroup wState6 wGroup1).activeGroupId
        ∈ (removeGroup wState6 wGroup1).groups.map (·.id) ∧
    (removeGroup wState6 wGroup1).groups.length + 1 = wState6.groups.length ∧
    (wState6.activeGroupId = wGroup1.id →
      ((removeGroup wState6 wGroup1).groups.head?).map (·.id)
        = some (removeGroup wState6 wGroup1).activeGroupId) :=
  (claim_C6_remove_group wState6 wGroup1 (by decide) (by decide)).2 (by decide)

/-- **C5.** `moveGroupById` on an existing group id (over duplicate-free
group ids): the group count is conserved (indeed the result is a permutation
of the input), the call returns `true` exactly when the list actually changed,
and the moved group lands at the index obtained by floor-rounding the target,
clamping it to `[0, length]`, correcting it for the self-removal shift, and
clamping once more to the shortened list. -/
theorem claim_C5_move_group (groups : List Group) (gid : String) (q : ℚ)
    (hnd : (groups.map (·.id)).Nodup) (hmem : gid ∈ groups.map (·.id)) :
    (moveGroupById groups gid q).1.length = groups.length ∧
    (moveGroupById groups gid q).1.Perm groups ∧
    ((moveGroupById groups gid q).2 = true ↔ (moveGroupById groups gid q).1 ≠ groups) ∧
    findIndexJs (fun y => y.id == gid) (moveGroupById groups gid q).1
      = max 0 (min ((groups.length : Int) - 1)
          (if max 0 (min (groups.length : Int) ⌊q⌋) > findIndexJs (fun y => y.id == gid) groups
           then max 0 (min (groups.length : Int) ⌊q⌋) - 1
           else max 0 (min (groups.length : Int) ⌊q⌋))) := by
  have hex : ∃ x ∈ groups, (fun y => y.id == gid) x = true := by
    rcases List.mem_map.mp hmem with ⟨a, ha, hid⟩
    exact ⟨a, ha, by simp [hid]⟩
  obtain ⟨pre, x, suf, heq, hpx, hpre⟩ := first_match_decomp _ _ hex
  have hxid : x.id = gid := by simpa using hpx
  have hfi : findIndexJs (fun y => y.id == gid) groups = (pre.length : Int) := by
    rw [heq]
    exact findIndexJs_append_first _ pre x suf hpre hpx
  have hsplit : groups.map (·.id) = pre.map (·.id) ++ x.id :: suf.map (·.id) := by
    simp [heq]
  have hgid_out : gid ∉ (pre.map (·.id)) ++ (suf.map (·.id)) := by
    rw [hsplit] at hnd
    have hmid := List.nodup_middle.mp hnd
    have hx1 : x.id ∉ (pre.map (·.id)) ++ (suf.map (·.id)) := (List.nodup_cons.mp hmid).1
    rw [hxid] at hx1
    exact hx1
  have hsuf : ∀ y ∈ suf, (fun y => y.id == gid) y = false := by
    intro y hy
    cases h : y.id == gid
    · exact h
    · exfalso
      exact hgid_out (List.mem_append.mpr (Or.inr
        (List.mem_map.mpr ⟨y, hy, by simpa using h⟩)))
  have hget : groups[pre.length]? = some x := by
    rw [heq, List.getElem?_append_right (le_refl _)]
    simp
  have htake : groups.take pre.length = pre := by
    rw [heq]; exact List.take_left pre (x :: suf)
  have hdrop : groups.drop (pre.length + 1) = suf := by
    rw [heq]; exact drop_succ_append pre x suf
  have hlen' : groups.length = pre.length + 1 + suf.length := by
    rw [heq]
    simp [List.length_append]
    omega
  have hrlen : (pre ++ suf).length = pre.length + suf.length := List.length_append pre suf
  -- abbreviations for the computed indices
  set rawT : Int := max 0 (min (groups.length : Int) ⌊q⌋) with hrawT
  set ins0 : Int := if rawT > (pre.length : Int) then rawT - 1 else rawT with hins0
  set insA : Int := max 0 (min ((pre ++ suf).length : Int) ins0) with hinsA
  have hinsA_nonneg : 0 ≤ insA := le_max_left 0 _
  have hinsA_le : insA ≤ ((pre ++ suf).length : Int) := by
    rw [hinsA]
    have := min_le_left ((pre ++ suf).length : Int) ins0
    omega
  have hiN_le : insA.toNat ≤ (pre ++ suf).length := by omega
  have hmove : moveGroupById groups gid q
      = ((pre ++ suf).take insA.toNat ++ [x] ++ (pre ++ suf).drop insA.toNat,
          decide (insA ≠ (pre.length : Int))) := by
    unfold moveGroupById
    rw [hfi, if_neg (not_lt.mpr (Int.natCast_nonneg _)), Int.toNat_natCast]
    simp only [hget, htake, hdrop]
  have hAfalse : ∀ y ∈ (pre ++ suf).take insA.toNat, (fun y => y.id == gid) y = false := by
    intro y hy
    rcases List.mem_append.mp (List.take_subset _ _ hy) with hyp | hys
    · exact hpre y hyp
    · exact hsuf y hys
  have hres1 : (moveGroupById groups gid q).1
      = (pre ++ suf).take insA.toNat ++ x :: (pre ++ suf).drop insA.toNat := by
    rw [hmove]
    simp [List.append_assoc]
  have hidx_res : findIndexJs (fun y => y.id == gid) (moveGroupById groups gid q).1
      = (((pre ++ suf).take insA.toNat).length : Int) := by
    rw [hres1]
    exact findIndexJs_append_first _ _ x _ hAfalse hpx
  have htakelen : ((pre ++ suf).take insA.toNat).length = insA.toNat := by
    rw [List.length_take]
    omega
  have hidx_res' : findIndexJs (fun y => y.id == gid) (moveGroupById groups gid q).1 = insA := by
    rw [hidx_res, htakelen]
    omega
  refine ⟨?_, ?_, ?_, ?_⟩
  · rw [hres1]
    simp only [List.length_append, List.length_cons, List.length_take, List.length_drop]
    omega
  · rw [hres1]
    have h1 : ((pre ++ suf).take insA.toNat ++ x :: (pre ++ suf).drop insA.toNat).Perm
        (x :: ((pre ++ suf).take insA.toNat ++ (pre ++ suf).drop insA.toNat)) :=
      List.perm_middle
    rw [List.take_append_drop] at h1
    have h2 : groups.Perm (x :: (pre ++ suf)) := by
      rw [heq]
      exact List.perm_middle
    exact h1.trans h2.symm
  · have hsnd : (moveGroupById groups gid q).2 = decide (insA ≠ (pre.length : Int)) := by
      rw [hmove]
    rw [hsnd]
    rw [decide_eq_true_iff]
    constructor
    · intro hne hcon
      apply hne
      have := hidx_res'
      rw [hcon, hfi] at this
      exact this.symm
    · intro hne hcon
      apply hne
      have hiN : insA.toNat = pre.length := by omega
      rw [hres1, hiN, List.take_left, List.drop_left, ← heq]
  · rw [hidx_res', hinsA, hins0, hrawT, hfi]
    have : ((pre ++ suf).length : Int) = (groups.length : Int) - 1 := by
      rw [hrlen, hlen']
      push_cast
      ring
    rw [this]

/-- **C5 (witness).** Moving `g1` (at index 0) of `[g1,g2,g3]` to the
fractional target `5/2`: the floor is 2, clamped to `[0,3]` it stays 2, the
self-removal shift corrects it to 1, so the group lands at index 1 and the
call reports a change; all four conclusions of the theorem hold here. -/
theorem claim_C5_witness :
    (moveGroupById wGroups5 "g1" (5 / 2)).1.length = wGroups5.length ∧
    (moveGroupById wGroups5 "g1" (5 / 2)).1.Perm wGroups5 ∧
    ((moveGroupById wGroups5 "g1" (5 / 2)).2 = true
      ↔ (moveGroupById wGroups5 "g1" (5 / 2)).1 ≠ wGroups5) ∧
    findIndexJs (fun y => y.id == "g1") (moveGroupById wGroups5 "g1" (5 / 2)).1
      = max 0 (min ((wGroups5.length : Int) - 1)
          (if max 0 (min (wGroups5.length : Int) ⌊(5 / 2 : ℚ)⌋)
              > findIndexJs (fun y => y.id == "g1") wGroups5
           then max 0 (min (wGroups5.length : Int) ⌊(5 / 2 : ℚ)⌋) - 1
           else max 0 (min (wGroups5.length : Int) ⌊(5 / 2 : ℚ)⌋))) :=
  claim_C5_move_group wGroups5 "g1" (5 / 2) (by decide) (by decide)

/-- `buildToAdd` in closed form: one entry per kept path, ids drawn from the
supply at consecutive indices. -/
theorem buildToAdd_closed (supply : Nat → String) (now : Nat) :
    ∀ (paths existing : List String) (k : Nat),
      buildToAdd supply now paths existing k
        = List.zipWith (fun p i => mkDroppedEntry (supply i) p now)
            (specKeptPaths existing paths)
            (List.range' k (specKeptPaths existing paths).length) := by
  intro paths
  induction paths with
  | nil => intro existing k; simp [buildToAdd, specKeptPaths]
  | cons p rest ih =>
    intro existing k
    by_cases h : p = "" ∨ p ∈ existing
    · have hb : (p == "" || existing.contains p) = true := by
        rcases h with h | h
        · simp [h]
        · simp [h]
      simp only [buildToAdd, hb, if_true, specKeptPaths, if_pos h]
      exact ih existing k
    · have hb : (p == "" || existing.contains p) = false := by
        push_neg at h
        simp [h.1, h.2]
      simp only [buildToAdd, hb, Bool.false_eq_true, if_false, specKeptPaths, if_neg h]
      rw [List.length_cons, List.range'_succ]
      simp only [List.zipWith_cons_cons]
      rw [ih (p :: existing) (k + 1)]

/-- Mapping `path` over the zipped entries recovers the kept paths. -/
theorem zipWith_mk_map_path (supply : Nat → String) (now : Nat) :
    ∀ (ps : List String) (ks : List Nat), ps.length = ks.length →
      (List.zipWith (fun p i => mkDroppedEntry (supply i) p now) ps ks).map (·.path) = ps := by
  intro ps
  induction ps with
  | nil => intro ks _; simp
  | cons p rest ih =>
    intro ks hlen
    cases ks with
    | nil => simp at hlen
    | cons k krest =>
      simp only [List.zipWith_cons_cons, List.map_cons]
      rw [ih krest (by simpa using hlen)]
      simp [mkDroppedEntry]

/-- Mapping `id` over the zipped entries recovers the supplied ids. -/
theorem zipWith_mk_map_id (supply : Nat → String) (now : Nat) :
    ∀ (ps : List String) (ks : List Nat), ps.length = ks.length →
      (List.zipWith (fun p i => mkDroppedEntry (supply i) p now) ps ks).map (·.id)
        = ks.map supply := by
  intro ps
  induction ps with
  | nil => intro ks hlen; cases ks <;> simp_all
  | cons p rest ih =>
    intro ks hlen
    cases ks with
    | nil => simp at hlen
    | cons k krest =>
      simp only [List.zipWith_cons_cons, List.map_cons]
      rw [ih krest (by simpa using hlen)]
      simp [mkDroppedEntry]

/-- Every zipped entry is a `mkDroppedEntry` of some kept path and supply
index. -/
theorem zipWith_mk_mem (supply : Nat → String) (now : Nat) :
    ∀ (ps : List String) (ks : List Nat) (e : AppEntry),
      e ∈ List.zipWith (fun p i => mkDroppedEntry (supply i) p now) ps ks →
      ∃ p i, e = mkDroppedEntry (supply i) p now := by
  intro ps
  induction ps with
  | nil => intro ks e he; simp at he
  | cons p rest ih =>
    intro ks e he
    cases ks with
    | nil => simp at he
    | cons k krest =>
      simp only [List.zipWith_cons_cons, List.mem_cons] at he
      rcases he with rfl | he
      · exact ⟨p, k, rfl⟩
      · exact ih krest e he

/-- **C1.** `addAppsToGroupAt` filters the given paths against the group's
entry paths by exact string equality (empty paths and repeats dropped), builds
one fresh entry per surviving path carrying the current timestamp, splices
them — in input order, as one contiguous block — at the floor-rounded,
clamped index, and returns exactly the inserted entries (`[]` when every path
was empty or a duplicate); `addAppsToGroup` does the same with the block
placed at the front, returning the same entries.  Freshness of `createId` is
the hypothesis on `supply`. -/
theorem claim_C1_add_entries (g : Group) (paths : List String) (q : ℚ)
    (supply : Nat → String) (now : Nat)
    (hinj : Function.Injective supply)
    (hfresh : ∀ i, supply i ∉ g.apps.map (·.id)) :
    (addAppsToGroupAt g paths q supply now).1.apps
      = g.apps.take ((max 0 (min (g.apps.length : Int) ⌊q⌋)).toNat)
          ++ (addAppsToGroupAt g paths q supply now).2
          ++ g.apps.drop ((max 0 (min (g.apps.length : Int) ⌊q⌋)).toNat) ∧
    ((addAppsToGroupAt g paths q supply now).2).map (·.path)
      = specKeptPaths (g.apps.map (·.path)) paths ∧
    (((addAppsToGroupAt g paths q supply now).2).map (·.id)).Nodup ∧
    (∀ e ∈ (addAppsToGroupAt g paths q supply now).2,
      e.addedAt = now ∧ e.name = suggestAppName e.path ∧ e.args = some "" ∧
      e.icon = none ∧ e.id ∉ g.apps.map (·.id)) ∧
    ((addAppsToGroupAt g paths q supply now).2 = []
      ↔ specKeptPaths (g.apps.map (·.path)) paths = []) ∧
    (addAppsToGroup g paths supply now).1.apps
      = (addAppsToGroup g paths supply now).2 ++ g.apps ∧
    (addAppsToGroup g paths supply now).2 = (addAppsToGroupAt g paths q supply now).2 := by
  have htoAdd := buildToAdd_closed supply now paths (g.apps.map (·.path)) 0
  set kept := specKeptPaths (g.apps.map (·.path)) paths with hkept
  set ks := List.range' 0 kept.length with hks
  set toAdd := buildToAdd supply now paths (g.apps.map (·.path)) 0 with htA
  have hlen : kept.length = ks.length := by rw [hks, List.length_range']
  have hpathmap : toAdd.map (·.path) = kept := by
    rw [htoAdd]; exact zipWith_mk_map_path supply now kept ks hlen
  have hidmap : toAdd.map (·.id) = ks.map supply := by
    rw [htoAdd]; exact zipWith_mk_map_id supply now kept ks hlen
  have hnodup : (toAdd.map (·.id)).Nodup := by
    rw [hidmap]
    exact List.Nodup.map hinj (List.nodup_range' 0 kept.length)
  have hshape : ∀ e ∈ toAdd, ∃ p i, e = mkDroppedEntry (supply i) p now := by
    intro e he
    rw [htoAdd] at he
    exact zipWith_mk_mem supply now kept ks e he
  have hprops : ∀ e ∈ toAdd,
      e.addedAt = now ∧ e.name = suggestAppName e.path ∧ e.args = some "" ∧
      e.icon = none ∧ e.id ∉ g.apps.map (·.id) := by
    intro e he
    obtain ⟨p, i, rfl⟩ := hshape e he
    refine ⟨rfl, rfl, rfl, rfl, ?_⟩
    exact hfresh i
  have hids_g : ∀ a ∈ g.apps, ((toAdd.map (·.id)).contains a.id) = false := by
    intro a ha
    cases hc : (toAdd.map (·.id)).contains a.id
    · rfl
    · exfalso
      have hmem2 : a.id ∈ toAdd.map (·.id) := by simpa using hc
      rw [hidmap] at hmem2
      obtain ⟨i, _, hsi⟩ := List.mem_map.mp hmem2
      exact hfresh i (hsi ▸ List.mem_map_of_mem _ ha)
  have hfilter_toAdd : toAdd.filter (fun a => (toAdd.map (·.id)).contains a.id) = toAdd := by
    rw [List.filter_eq_self]
    intro a ha
    have hm : a.id ∈ toAdd.map (·.id) := List.mem_map_of_mem _ ha
    simpa using hm
  have hfilter_pre : ∀ n : Nat,
      (g.apps.take n).filter (fun a => (toAdd.map (·.id)).contains a.id) = [] := by
    intro n
    rw [List.filter_eq_nil_iff]
    intro a ha
    rw [hids_g a (List.take_subset n g.apps ha)]
    simp
  have hfilter_drop : ∀ n : Nat,
      (g.apps.drop n).filter (fun a => (toAdd.map (·.id)).contains a.id) = [] := by
    intro n
    rw [List.filter_eq_nil_iff]
    intro a ha
    rw [hids_g a (List.drop_subset n g.apps ha)]
    simp
  have hfilter_all : g.apps.filter (fun a => (toAdd.map (·.id)).contains a.id) = [] := by
    rw [List.filter_eq_nil_iff]
    intro a ha
    rw [hids_g a ha]
    simp
  set idxN := (max 0 (min (g.apps.length : Int) ⌊q⌋)).toNat with hidxN
  by_cases hE : toAdd = []
  · have hAt : addAppsToGroupAt g paths q supply now = (g, []) := by
      simp [addAppsToGroupAt, ← htA, hE]
    have hG : addAppsToGroup g paths supply now = (g, []) := by
      simp [addAppsToGroup, ← htA, hE]
    have hkeptnil : kept = [] := by
      have hz : List.zipWith (fun p i => mkDroppedEntry (supply i) p now) kept ks = [] := by
        rw [← htoAdd]
        exact hE
      rcases List.zipWith_eq_nil_iff.mp hz with h | h
      · exact h
      · have hl := hlen
        rw [h] at hl
        simpa using List.length_eq_zero.mp (by simpa using hl)
    refine ⟨?_, ?_, ?_, ?_, ?_, ?_, ?_⟩
    · simp [hAt, List.take_append_drop]
    · simp [hAt, ← hkeptnil]
    · simp [hAt]
    · simp [hAt]
    · simp [hAt, ← hkeptnil]
    · simp [hG]
    · simp [hG, hAt]
  · have hE' : toAdd.isEmpty = false := by
      cases h : toAdd.isEmpty
      · rfl
      · exact absurd (List.isEmpty_iff.mp h) hE
    have hAt : addAppsToGroupAt g paths q supply now
        = ({ g with apps := g.apps.take idxN ++ toAdd ++ g.apps.drop idxN },
            (g.apps.take idxN ++ toAdd ++ g.apps.drop idxN).filter
              (fun a => (toAdd.map (·.id)).contains a.id)) := by
      simp only [addAppsToGroupAt, ← htA, hE', Bool.false_eq_true, if_false, hidxN]
    have hG : addAppsToGroup g paths supply now
        = ({ g with apps := toAdd ++ g.apps },
            (toAdd ++ g.apps).filter (fun a => (toAdd.map (·.id)).contains a.id)) := by
      simp only [addAppsToGroup, ← htA, hE', Bool.false_eq_true, if_false]
    have hretAt : (addAppsToGroupAt g paths q supply now).2 = toAdd := by
      rw [hAt]
      simp only [List.filter_append, hfilter_pre, hfilter_toAdd, hfilter_drop]
      simp
    have hretG : (addAppsToGroup g paths supply now).2 = toAdd := by
      rw [hG]
      simp only [List.filter_append, hfilter_toAdd, hfilter_all]
      simp
    refine ⟨?_, ?_, ?_, ?_, ?_, ?_, ?_⟩
    · rw [hretAt, hAt]
    · rw [hretAt, hpathmap]
    · rw [hretAt]
      exact hnodup
    · rw [hretAt]
      exact hprops
    · rw [hretAt]
      refine iff_of_false hE ?_
      intro hk
      exact hE (by rw [htoAdd, hk]; simp)
    · rw [hretG, hG]
    · rw [hretG, hretAt]

/-- **C1 (witness).** Group `g1` holds `C:/old.exe`; adding
`["C:/old.exe", "", "C:/new.exe", "C:/new.exe"]` at fractional index `3/2`
keeps exactly one path (`C:/new.exe` — the existing path, the empty path and
the repeat are dropped), and the theorem's conclusions hold at this input. -/
theorem claim_C1_witness :
    (addAppsToGroupAt cxDropGroup ["C:/old.exe", "", "C:/new.exe", "C:/new.exe"] (3 / 2)
        wSupply 42).1.apps
      = cxDropGroup.apps.take
          ((max 0 (min (cxDropGroup.apps.length : Int) ⌊(3 / 2 : ℚ)⌋)).toNat)
        ++ (addAppsToGroupAt cxDropGroup ["C:/old.exe", "", "C:/new.exe", "C:/new.exe"] (3 / 2)
              wSupply 42).2
        ++ cxDropGroup.apps.drop
            ((max 0 (min (cxDropGroup.apps.length : Int) ⌊(3 / 2 : ℚ)⌋)).toNat) ∧
    ((addAppsToGroupAt cxDropGroup ["C:/old.exe", "", "C:/new.exe", "C:/new.exe"] (3 / 2)
        wSupply 42).2).map (·.path)
      = specKeptPaths (cxDropGroup.apps.map (·.path))
          ["C:/old.exe", "", "C:/new.exe", "C:/new.exe"] ∧
    (((addAppsToGroupAt cxDropGroup ["C:/old.exe", "", "C:/new.exe", "C:/new.exe"] (3 / 2)
        wSupply 42).2).map (·.id)).Nodup ∧
    (∀ e ∈ (addAppsToGroupAt cxDropGroup ["C:/old.exe", "", "C:/new.exe", "C:/new.exe"] (3 / 2)
        wSupply 42).2,
      e.addedAt = 42 ∧ e.name = suggestAppName e.path ∧ e.args = some "" ∧
      e.icon = none ∧ e.id ∉ cxDropGroup.apps.map (·.id)) ∧
    ((addAppsToGroupAt cxDropGroup ["C:/old.exe", "", "C:/new.exe", "C:/new.exe"] (3 / 2)
        wSupply 42).2 = []
      ↔ specKeptPaths (cxDropGroup.apps.map (·.path))
          ["C:/old.exe", "", "C:/new.exe", "C:/new.exe"] = []) ∧
    (addAppsToGroup cxDropGroup ["C:/old.exe", "", "C:/new.exe", "C:/new.exe"]
        wSupply 42).1.apps
      = (addAppsToGroup cxDropGroup ["C:/old.exe", "", "C:/new.exe", "C:/new.exe"]
          wSupply 42).2 ++ cxDropGroup.apps ∧
    (addAppsToGroup cxDropGroup ["C:/old.exe", "", "C:/new.exe", "C:/new.exe"] wSupply 42).2
      = (addAppsToGroupAt cxDropGroup ["C:/old.exe", "", "C:/new.exe", "C:/new.exe"] (3 / 2)
          wSupply 42).2 :=
  claim_C1_add_entries cxDropGroup ["C:/old.exe", "", "C:/new.exe", "C:/new.exe"] (3 / 2)
    wSupply 42
    (fun i j hij => by
      have hlen := congrArg (fun s => s.data.length) hij
      simpa [wSupply] using hlen)
    (fun i hmem => by
      have hsingle : (wSupply i) = "e0" := by simpa [cxDropGroup, cxOldEntry] using hmem
      have hdata := congrArg (fun s => s.data) hsingle
      simp [wSupply, List.replicate_succ] at hdata)

/-! ## Search-index lemma kit (for C7) -/

/-- `Char.ofNat` round-trips on the Basic Multilingual Plane prefix. -/
theorem charOfNat_toNat (n : Nat) (h : n < 55296) : (Char.ofNat n).toNat = n := by
  unfold Char.ofNat Char.toNat
  split
  · rfl
  · rename_i hv
    exact absurd (Or.inl h) hv

/-- ASCII lower-casing is idempotent. -/
theorem jsToLowerChar_idem (c : Char) :
    jsToLowerChar (jsToLowerChar c) = jsToLowerChar c := by
  unfold jsToLowerChar
  by_cases h : 65 ≤ c.toNat ∧ c.toNat ≤ 90
  · rw [if_pos h]
    have ht : (Char.ofNat (c.toNat + 32)).toNat = c.toNat + 32 :=
      charOfNat_toNat _ (by omega)
    rw [if_neg]
    rw [ht]
    omega
  · rw [if_neg h, if_neg h]

/-- A list whose elements are all fixed by `f` is fixed by `map f`. -/
theorem map_id_of_fixed {f : Char → Char} :
    ∀ l : List Char, (∀ c ∈ l, f c = c) → l.map f = l := by
  intro l
  induction l with
  | nil => intro _; rfl
  | cons a as ih =>
    intro h
    simp only [List.map_cons, h a (by simp)]
    rw [ih (fun c hc => h c (by simp [hc]))]

/-- `begMatch q s` holds exactly when `q` is a prefix of `s`. -/
theorem begMatch_iff (q s : List Char) :
    begMatch q s = true ↔ ∃ suf, s = q ++ suf := by
  induction q generalizing s with
  | nil => simp [begMatch]
  | cons a as ih =>
    cases s with
    | nil =>
      simp [begMatch]
    | cons b bs =>
      simp only [begMatch, Bool.and_eq_true, beq_iff_eq, ih bs]
      constructor
      · rintro ⟨rfl, suf, rfl⟩
        exact ⟨suf, rfl⟩
      · rintro ⟨suf, heq⟩
        obtain ⟨rfl, rfl⟩ : b = a ∧ bs = as ++ suf := by
          constructor <;> [exact (List.cons.injEq .. ▸ heq).1; exact (List.cons.injEq .. ▸ heq).2]
        exact ⟨rfl, suf, rfl⟩

/-- `hasSeg s q` holds exactly when `q` occurs contiguously inside `s`. -/
theorem hasSeg_iff (s q : List Char) :
    hasSeg s q = true ↔ ∃ pre suf, s = pre ++ (q ++ suf) := by
  induction s with
  | nil =>
    simp only [hasSeg, List.isEmpty_iff]
    constructor
    · rintro rfl
      exact ⟨[], [], rfl⟩
    · rintro ⟨pre, suf, heq⟩
      rcases List.append_eq_nil.mp heq.symm with ⟨rfl, h2⟩
      exact (List.append_eq_nil.mp h2).1
  | cons a t ih =>
    simp only [hasSeg, Bool.or_eq_true, begMatch_iff, ih]
    constructor
    · rintro (⟨suf, heq⟩ | ⟨pre, suf, heq⟩)
      · exact ⟨[], suf, by simp [heq]⟩
      · exact ⟨a :: pre, suf, by simp [heq]⟩
    · rintro ⟨pre, suf, heq⟩
      cases pre with
      | nil =>
        exact Or.inl ⟨suf, by simpa using heq⟩
      | cons p ps =>
        right
        refine ⟨ps, suf, ?_⟩
        have := heq
        simp only [List.cons_append] at this
        exact (List.cons.injEq .. ▸ this).2

/-- Occurrence is preserved when the needle is itself cut from the middle of
the old needle. -/
theorem hasSeg_of_mid (s q w1 r w2 : List Char) (hq : q = w1 ++ r ++ w2)
    (h : hasSeg s q = true) : hasSeg s r = true := by
  rw [hasSeg_iff] at h ⊢
  obtain ⟨pre, suf, rfl⟩ := h
  subst hq
  exact ⟨pre ++ w1, w2 ++ suf, by simp⟩

/-- Characters of an occurring needle are characters of the haystack. -/
theorem hasSeg_subset (s q : List Char) (h : hasSeg s q = true) :
    ∀ c ∈ q, c ∈ s := by
  rw [hasSeg_iff] at h
  obtain ⟨pre, suf, rfl⟩ := h
  intro c hc
  simp [hc]

/-- `trim` cuts its result out of the middle of its input. -/
theorem jsTrimL_decomp (l : List Char) :
    ∃ w1 w2, l = w1 ++ jsTrimL l ++ w2 := by
  unfold jsTrimL
  refine ⟨l.takeWhile jsIsWs,
    (((l.dropWhile jsIsWs).reverse.takeWhile jsIsWs)).reverse, ?_⟩
  set d := l.dropWhile jsIsWs with hd
  have h1 : l.takeWhile jsIsWs ++ d = l := List.takeWhile_append_dropWhile jsIsWs l
  have h2 : d.reverse.takeWhile jsIsWs ++ d.reverse.dropWhile jsIsWs = d.reverse :=
    List.takeWhile_append_dropWhile jsIsWs d.reverse
  have h3 : d = (d.reverse.dropWhile jsIsWs).reverse ++ (d.reverse.takeWhile jsIsWs).reverse := by
    conv_lhs => rw [← List.reverse_reverse d, ← h2]
    rw [List.reverse_append]
  calc l = l.takeWhile jsIsWs ++ d := h1.symm
    _ = l.takeWhile jsIsWs ++ ((d.reverse.dropWhile jsIsWs).reverse
          ++ (d.reverse.takeWhile jsIsWs).reverse) := by rw [← h3]
    _ = _ := by simp [List.append_assoc]

/-- Pieces produced by `splitRuns` are nonempty. -/
theorem splitRuns_ne_nil (p : Char → Bool) :
    ∀ l, ∀ t ∈ splitRuns p l, t ≠ [] := by
  have main : ∀ n l, l.length ≤ n → ∀ t ∈ splitRuns p l, t ≠ [] := by
    intro n
    induction n with
    | zero =>
      intro l hl t ht
      have : l = [] := List.length_eq_zero.mp (Nat.le_zero.mp hl)
      subst this
      simp [splitRuns] at ht
    | succ n ih =>
      intro l hl t ht
      cases l with
      | nil => simp [splitRuns] at ht
      | cons c rest =>
        by_cases hc : p c = true
        · rw [splitRuns, if_pos hc] at ht
          exact ih rest (by simpa using Nat.le_of_succ_le_succ hl) t ht
        · rw [splitRuns, if_neg hc] at ht
          rcases List.mem_cons.mp ht with rfl | ht'
          · simp
          · refine ih (rest.dropWhile (fun d => !p d)) ?_ t ht'
            have := (rest.dropWhile_sublist (fun d => !p d)).length_le
            simp only [List.length_cons] at hl
            omega
  intro l
  exact main l.length l (le_refl _)

/-- Characters of a `splitRuns` piece are characters of the input. -/
theorem splitRuns_subset (p : Char → Bool) :
    ∀ l, ∀ t ∈ splitRuns p l, ∀ c ∈ t, c ∈ l := by
  have main : ∀ n l, l.length ≤ n → ∀ t ∈ splitRuns p l, ∀ c ∈ t, c ∈ l := by
    intro n
    induction n with
    | zero =>
      intro l hl t ht
      have : l = [] := List.length_eq_zero.mp (Nat.le_zero.mp hl)
      subst this
      simp [splitRuns] at ht
    | succ n ih =>
      intro l hl t ht c hc
      cases l with
      | nil => simp [splitRuns] at ht
      | cons a rest =>
        by_cases ha : p a = true
        · rw [splitRuns, if_pos ha] at ht
          exact List.mem_cons_of_mem a
            (ih rest (by simpa using Nat.le_of_succ_le_succ hl) t ht c hc)
        · rw [splitRuns, if_neg ha] at ht
          rcases List.mem_cons.mp ht with rfl | ht'
          · rcases List.mem_cons.mp hc with rfl | hc'
            · exact List.mem_cons_self _ _
            · exact List.mem_cons_of_mem a
                ((rest.takeWhile_sublist (fun d => !p d)).subset hc')
          · have hsub : ∀ c ∈ t, c ∈ rest.dropWhile (fun d => !p d) := by
              intro c hc
              exact ih (rest.dropWhile (fun d => !p d))
                (by
                  have := (rest.dropWhile_sublist (fun d => !p d)).length_le
                  simp only [List.length_cons] at hl
                  omega) t ht' c hc
            exact List.mem_cons_of_mem a
              ((rest.dropWhile_sublist (fun d => !p d)).subset (hsub c hc))
  intro l
  exact main l.length l (le_refl _)

/-- Adding an element to a JS set makes it a member. -/
theorem addUnique_self (l : List String) (x : String) : x ∈ addUnique l x := by
  simp only [addUnique]
  split
  · rename_i h
    simpa using h
  · simp

/-- Adding to a JS set keeps existing members. -/
theorem addUnique_mono (l : List String) (x y : String) (h : y ∈ l) :
    y ∈ addUnique l x := by
  simp only [addUnique]
  split
  · exact h
  · simp [h]

/-- `indexAdd` preserves an existing term binding (possibly enlarging it). -/
theorem indexAdd_preserves (m : List (List Char × List String)) (t : List Char)
    (i : String) (t' : List Char) (i' : String)
    (h : ∃ ids, (t, ids) ∈ m ∧ i ∈ ids) :
    ∃ ids, (t, ids) ∈ indexAdd m t' i' ∧ i ∈ ids := by
  induction m with
  | nil =>
    obtain ⟨ids, hmem, _⟩ := h
    simp at hmem
  | cons ti rest ih =>
    obtain ⟨t0, ids0⟩ := ti
    obtain ⟨ids, hmem, hi⟩ := h
    rcases List.mem_cons.mp hmem with heq | hmem'
    · injection heq with h1 h2
      subst h1
      subst h2
      by_cases ht : t = t'
      · simp only [indexAdd, if_pos ht]
        exact ⟨addUnique ids i', List.mem_cons_self _ _, addUnique_mono _ _ _ hi⟩
      · simp only [indexAdd, if_neg ht]
        exact ⟨ids, List.mem_cons_self _ _, hi⟩
    · by_cases ht : t0 = t'
      · simp only [indexAdd, if_pos ht]
        exact ⟨ids, List.mem_cons_of_mem _ hmem', hi⟩
      · simp only [indexAdd, if_neg ht]
        obtain ⟨ids2, hmem2, hi2⟩ := ih ⟨ids, hmem', hi⟩
        exact ⟨ids2, List.mem_cons_of_mem _ hmem2, hi2⟩

/-- `indexAdd m t i` yields a binding for `t` containing `i`. -/
theorem indexAdd_establishes (m : List (List Char × List String)) (t : List Char)
    (i : String) :
    ∃ ids, (t, ids) ∈ indexAdd m t i ∧ i ∈ ids := by
  induction m with
  | nil => exact ⟨[i], by simp [indexAdd], by simp⟩
  | cons ti rest ih =>
    obtain ⟨t0, ids0⟩ := ti
    by_cases ht : t0 = t
    · subst ht
      simp only [indexAdd, if_pos rfl]
      exact ⟨addUnique ids0 i, List.mem_cons_self _ _, addUnique_self _ _⟩
    · simp only [indexAdd, if_neg ht]
      obtain ⟨ids2, hmem2, hi2⟩ := ih
      exact ⟨ids2, List.mem_cons_of_mem _ hmem2, hi2⟩

/-- Folding further terms into the index preserves a binding. -/
theorem termsFold_preserves (terms : List (List Char)) (i' : String) (t : List Char)
    (i : String) :
    ∀ m, (∃ ids, (t, ids) ∈ m ∧ i ∈ ids) →
      ∃ ids, (t, ids) ∈ terms.foldl (fun m t' => indexAdd m t' i') m ∧ i ∈ ids := by
  induction terms with
  | nil => intro m h; exact h
  | cons t0 rest ih =>
    intro m h
    exact ih (indexAdd m t0 i') (indexAdd_preserves m t i t0 i' h)

/-- Folding further apps into the index preserves a binding. -/
theorem appsFold_preserves (apps : List AppEntry) (t : List Char) (i : String) :
    ∀ m, (∃ ids, (t, ids) ∈ m ∧ i ∈ ids) →
      ∃ ids, (t, ids) ∈ apps.foldl
          (fun m a => (appTerms a).foldl (fun m t' => indexAdd m t' a.id) m) m ∧
        i ∈ ids := by
  induction apps with
  | nil => intro m h; exact h
  | cons a rest ih =>
    intro m h
    exact ih _ (termsFold_preserves (appTerms a) a.id t i m h)

/-- Folding further groups into the index preserves a binding. -/
theorem groupsFold_preserves (groups : List Group) (t : List Char) (i : String) :
    ∀ m, (∃ ids, (t, ids) ∈ m ∧ i ∈ ids) →
      ∃ ids, (t, ids) ∈ groups.foldl
          (fun m g => g.apps.foldl
            (fun m a => (appTerms a).foldl (fun m t' => indexAdd m t' a.id) m) m) m ∧
        i ∈ ids := by
  induction groups with
  | nil => intro m h; exact h
  | cons g rest ih =>
    intro m h
    exact ih _ (appsFold_preserves g.apps t i m h)

/-- Folding an app's terms establishes a binding for each of its terms. -/
theorem termsFold_establishes (terms : List (List Char)) (i : String) (t : List Char)
    (ht : t ∈ terms) :
    ∀ m, ∃ ids, (t, ids) ∈ terms.foldl (fun m t' => indexAdd m t' i) m ∧ i ∈ ids := by
  induction terms with
  | nil => simp at ht
  | cons t0 rest ih =>
    intro m
    rcases List.mem_cons.mp ht with rfl | ht'
    · exact termsFold_preserves rest i t i (indexAdd m t i) (indexAdd_establishes m t i)
    · exact ih ht' (indexAdd m t0 i)

/-- Folding a group's apps establishes a binding for each term of each app. -/
theorem appsFold_establishes (apps : List AppEntry) (a : AppEntry) (ha : a ∈ apps)
    (t : List Char) (ht : t ∈ appTerms a) :
    ∀ m, ∃ ids, (t, ids) ∈ apps.foldl
        (fun m b => (appTerms b).foldl (fun m t' => indexAdd m t' b.id) m) m ∧
      a.id ∈ ids := by
  induction apps with
  | nil => simp at ha
  | cons b rest ih =>
    intro m
    rcases List.mem_cons.mp ha with rfl | ha'
    · exact appsFold_preserves rest t a.id _ (termsFold_establishes (appTerms a) a.id t ht m)
    · exact ih ha' _

/-- `buildIndex` binds every nonempty term of every entry to a set containing
that entry's id. -/
theorem buildIndex_mem (groups : List Group) (g : Group) (hg : g ∈ groups)
    (a : AppEntry) (ha : a ∈ g.apps) (t : List Char) (ht : t ∈ appTerms a) :
    ∃ ids, (t, ids) ∈ buildIndex groups ∧ a.id ∈ ids := by
  have main : ∀ m, ∃ ids, (t, ids) ∈ groups.foldl
      (fun m g => g.apps.foldl
        (fun m a => (appTerms a).foldl (fun m t' => indexAdd m t' a.id) m) m) m ∧
      a.id ∈ ids := by
    induction groups with
    | nil => simp at hg
    | cons g0 rest ih =>
      intro m
      rcases List.mem_cons.mp hg with rfl | hg'
      · exact groupsFold_preserves rest t a.id _ (appsFold_establishes g.apps a ha t ht m)
      · exact ih hg' _
  exact main []

/-- Unioning an id set keeps existing accumulator members. -/
theorem addAllUnique_mono (ids : List String) :
    ∀ acc y, y ∈ acc → y ∈ addAllUnique acc ids := by
  induction ids with
  | nil => intro acc y h; exact h
  | cons i rest ih =>
    intro acc y h
    exact ih (addUnique acc i) y (addUnique_mono acc i y h)

/-- Unioning an id set adds all its members. -/
theorem addAllUnique_adds (ids : List String) :
    ∀ acc y, y ∈ ids → y ∈ addAllUnique acc ids := by
  induction ids with
  | nil => intro acc y h; simp at h
  | cons i rest ih =>
    intro acc y h
    rcases List.mem_cons.mp h with rfl | h'
    · exact addAllUnique_mono rest (addUnique acc y) y (addUnique_self acc y)
    · exact ih (addUnique acc i) y h'

/-- The matched-id fold keeps accumulator members. -/
theorem collectFold_mono (index : List (List Char × List String)) (q : List Char) :
    ∀ acc y, y ∈ acc →
      y ∈ index.foldl (fun acc ti => if hasSeg ti.1 q then addAllUnique acc ti.2 else acc) acc := by
  induction index with
  | nil => intro acc y h; exact h
  | cons ti rest ih =>
    intro acc y h
    simp only [List.foldl_cons]
    by_cases hs : hasSeg ti.1 q = true
    · rw [if_pos hs]
      exact ih _ y (addAllUnique_mono ti.2 acc y h)
    · rw [if_neg hs]
      exact ih _ y h

/-- Every id bound to a term containing the query ends up in `collectMatched`. -/
theorem collectMatched_mem (index : List (List Char × List String)) (q : List Char)
    (t : List Char) (ids : List String) (i : String)
    (hmem : (t, ids) ∈ index) (hseg : hasSeg t q = true) (hi : i ∈ ids) :
    i ∈ collectMatched index q := by
  have main : ∀ acc,
      i ∈ index.foldl (fun acc ti => if hasSeg ti.1 q then addAllUnique acc ti.2 else acc) acc := by
    induction index with
    | nil => simp at hmem
    | cons ti rest ih =>
      intro acc
      simp only [List.foldl_cons]
      rcases List.mem_cons.mp hmem with heq | hmem'
      · subst heq
        rw [if_pos hseg]
        exact collectFold_mono rest q _ i (addAllUnique_adds ids acc i hi)
      · exact ih hmem' _
  exact main []

/-- `mapGet` after `mapSet` at the same key. -/
theorem mapGet_set_same (m : List (String × AppEntry)) (k : String) (v : AppEntry) :
    mapGet (mapSet m k v) k = some v := by
  induction m with
  | nil => simp [mapSet, mapGet, List.find?]
  | cons kv rest ih =>
    obtain ⟨k0, v0⟩ := kv
    by_cases hk : k0 = k
    · subst hk
      simp [mapSet, mapGet, List.find?]
    · simp only [mapSet, if_neg hk]
      have hne : (k0 == k) = false := by simp [hk]
      simpa [mapGet, List.find?, hne] using ih

/-- `mapGet` after `mapSet` at a different key. -/
theorem mapGet_set_other (m : List (String × AppEntry)) (k k' : String) (v : AppEntry)
    (h : k' ≠ k) : mapGet (mapSet m k' v) k = mapGet m k := by
  induction m with
  | nil =>
    have hne : (k' == k) = false := by simp [h]
    simp [mapSet, mapGet, List.find?, hne]
  | cons kv rest ih =>
    obtain ⟨k0, v0⟩ := kv
    by_cases hk : k0 = k'
    · subst hk
      have hne : (k0 == k) = false := by simp [h]
      simp [mapSet, mapGet, List.find?, hne]
    · simp only [mapSet, if_neg hk]
      by_cases hk2 : k0 = k
      · subst hk2
        simp [mapGet, List.find?]
      · have hne : (k0 == k) = false := by simp [hk2]
        simpa [mapGet, List.find?, hne] using ih

/-- Nested per-group folding equals one fold over the flattened app list. -/
theorem foldl_flat {α β γ : Type} (g : α → List β) (f : γ → β → γ) :
    ∀ (L : List α) (init : γ),
      L.foldl (fun acc x => (g x).foldl f acc) init = (L.flatMap g).foldl f init := by
  intro L
  induction L with
  | nil => intro init; rfl
  | cons a rest ih =>
    intro init
    simp only [List.foldl_cons, List.flatMap_cons, List.foldl_append]
    exact ih _

/-- `buildAppById` as a single fold over all apps in iteration order. -/
theorem buildAppById_flat (groups : List Group) :
    buildAppById groups
      = (groups.flatMap (·.apps)).foldl (fun m a => mapSet m a.id a) [] := by
  unfold buildAppById
  exact foldl_flat (·.apps) (fun m a => mapSet m a.id a) groups []

/-- Writing apps whose ids differ from `k` leaves the lookup at `k` alone. -/
theorem mapFold_preserves (apps : List AppEntry) (k : String)
    (hk : ∀ b ∈ apps, b.id ≠ k) :
    ∀ m, mapGet (apps.foldl (fun m a => mapSet m a.id a) m) k = mapGet m k := by
  induction apps with
  | nil => intro m; rfl
  | cons b rest ih =>
    intro m
    simp only [List.foldl_cons]
    rw [ih (fun c hc => hk c (by simp [hc]))]
    exact mapGet_set_other m k b.id b (hk b (by simp))

/-- Under globally unique entry ids, `appById` resolves every entry's id to
that entry. -/
theorem appById_lookup (groups : List Group)
    (hnd : ((groups.flatMap (·.apps)).map (·.id)).Nodup)
    (g : Group) (hg : g ∈ groups) (a : AppEntry) (ha : a ∈ g.apps) :
    mapGet (buildAppById groups) a.id = some a := by
  have hmem : a ∈ groups.flatMap (·.apps) := List.mem_flatMap.mpr ⟨g, hg, ha⟩
  obtain ⟨pre, suf, heq⟩ := List.append_of_mem hmem
  have hsuf : ∀ b ∈ suf, b.id ≠ a.id := by
    rw [heq] at hnd
    have hsplit : (pre ++ a :: suf).map (·.id)
        = pre.map (·.id) ++ a.id :: suf.map (·.id) := by simp
    rw [hsplit] at hnd
    have hmid := List.nodup_middle.mp hnd
    have hout : a.id ∉ (pre.map (·.id)) ++ (suf.map (·.id)) := (List.nodup_cons.mp hmid).1
    intro b hb hcon
    exact hout (List.mem_append.mpr (Or.inr (List.mem_map.mpr ⟨b, hb, hcon⟩)))
  rw [buildAppById_flat, heq, List.foldl_append, List.foldl_cons]
  rw [mapFold_preserves suf a.id hsuf]
  exact mapGet_set_same _ a.id a

/-- **C7.** For every entry in the catalog (with globally unique entry ids)
and every query that is not all whitespace and occurs as a substring of the
entry's lower-cased name or of one of its delimiter-split tokens, searching
that query includes the entry in `filteredApps`; and for every empty-or-
whitespace query the result is exactly the active group's entries in stored
order. -/
theorem claim_C7_search_inclusion (st : LauncherState) (q : String) (g : Group)
    (app : AppEntry)
    (hnd : ((st.groups.flatMap (·.apps)).map (·.id)).Nodup)
    (hg : g ∈ st.groups) (ha : app ∈ g.apps)
    (hq : jsTrim q ≠ "")
    (hsub : hasSeg (jsToLower app.name).data q.data = true ∨
      ∃ tok ∈ splitRuns jsDelim (jsToLower app.name).data, hasSeg tok q.data = true) :
    app ∈ filteredApps st q ∧
    (∀ q0, jsTrim q0 = "" → ∀ ag, activeGroupOf st = some ag →
      filteredApps st q0 = ag.apps) := by
  have hqT_ne : jsTrimL q.data ≠ [] := by
    intro hcon
    apply hq
    rw [String.ext_iff]
    exact hcon
  obtain ⟨w1, w2, hdecomp⟩ := jsTrimL_decomp q.data
  obtain ⟨t0, ht0mem, hseg0⟩ : ∃ t0, (t0 = (jsToLower app.name).data ∨
      t0 ∈ splitRuns jsDelim (jsToLower app.name).data) ∧ hasSeg t0 q.data = true := by
    rcases hsub with h | ⟨tok, htok, h⟩
    · exact ⟨(jsToLower app.name).data, Or.inl rfl, h⟩
    · exact ⟨tok, Or.inr htok, h⟩
  have hsegT : hasSeg t0 (jsTrimL q.data) = true :=
    hasSeg_of_mid t0 q.data w1 (jsTrimL q.data) w2 hdecomp hseg0
  have hchars : ∀ c ∈ t0, c ∈ (jsToLower app.name).data := by
    rcases ht0mem with rfl | htk
    · intro c hc; exact hc
    · exact splitRuns_subset jsDelim (jsToLower app.name).data t0 htk
  have hqchars : ∀ c ∈ jsTrimL q.data, c ∈ (jsToLower app.name).data :=
    fun c hc => hchars c (hasSeg_subset t0 (jsTrimL q.data) hsegT c hc)
  have hfix : (jsTrimL q.data).map jsToLowerChar = jsTrimL q.data := by
    apply map_id_of_fixed
    intro c hc
    have hcnl : c ∈ app.name.data.map jsToLowerChar := hqchars c hc
    obtain ⟨c0, _, rfl⟩ := List.mem_map.mp hcnl
    exact jsToLowerChar_idem c0
  have hq'data : (jsToLower (jsTrim q)).data = jsTrimL q.data := by
    show (jsTrim q).data.map jsToLowerChar = jsTrimL q.data
    exact hfix
  have hq'ne : jsToLower (jsTrim q) ≠ "" := by
    intro hcon
    have hd := congrArg String.data hcon
    rw [hq'data] at hd
    exact hqT_ne hd
  have ht0ne : t0 ≠ [] := by
    intro hcon
    rw [hcon] at hsegT
    simp only [hasSeg, List.isEmpty_iff] at hsegT
    exact hqT_ne hsegT
  have hterms : t0 ∈ appTerms app := by
    simp only [appTerms]
    apply List.mem_filter.mpr
    refine ⟨?_, ?_⟩
    · rcases ht0mem with rfl | htk
      · exact List.mem_cons_self _ _
      · exact List.mem_cons_of_mem _ htk
    · simpa [List.isEmpty_iff] using ht0ne
  obtain ⟨ids, hidx, hid⟩ := buildIndex_mem st.groups g hg app ha t0 hterms
  have hcoll : app.id ∈ collectMatched (buildIndex st.groups) (jsTrimL q.data) :=
    collectMatched_mem _ _ t0 ids app.id hidx hsegT hid
  have hlook : mapGet (buildAppById st.groups) app.id = some app :=
    appById_lookup st.groups hnd g hg app ha
  constructor
  · have hfa : filteredApps st q
        = (collectMatched (buildIndex st.groups) (jsToLower (jsTrim q)).data).filterMap
            (fun id => mapGet (buildAppById st.groups) id) := by
      simp only [filteredApps]
      rw [if_neg hq'ne]
    rw [hfa, hq'data]
    exact List.mem_filterMap.mpr ⟨app.id, hcoll, hlook⟩
  · intro q0 hq0 ag hag
    have hlow : jsToLower (jsTrim q0) = "" := by
      rw [hq0]
      rfl
    simp only [filteredApps]
    rw [if_pos hlow, hag]

/-- **C7 (witness).** In a catalog holding the entry `Fire-Fox`, the query
`"ox"` — a substring of the token `fox` and of the lower-cased name — returns
that entry; and whitespace-only queries return the active group verbatim. -/
theorem claim_C7_witness :
    wEntry7 ∈ filteredApps wState7 "ox" ∧
    (∀ q0, jsTrim q0 = "" → ∀ ag, activeGroupOf wState7 = some ag →
      filteredApps wState7 q0 = ag.apps) :=
  claim_C7_search_inclusion wState7 "ox" ⟨"g1", "Group-1", [wEntry7]⟩ wEntry7
    (by decide) (by decide) (by decide) (by decide) (by decide)

end Launcher
